import Mathlib

/-!
# Weight input of the FIASCO codec: a shallow embedding of src/input/weights.c

The single public routine of the file, read_weights, is embedded here over an
explicit model of the already-decoded automaton (wfa_t).  The automaton type,
the edge terminator and the quantization model records come from headers that
are not part of the provided sources; they are modelled from the data model of
the specification.  The arithmetic decoder (decode_array of arith.c) and the
bits-to-real inversion (btor of rpf.c) are external collaborators and enter the
embedding as function parameters.

Machine integers are modelled by Nat and Int with exact arithmetic.  In the C
source the per-state levels are unsigned and the scan variables are int; a
state carrying range labels always has level at least one in a decoded WFA, so
the exact Int value of level - 1 below coincides with the value the C program
computes.  The conversion of a real weight to the fixed-point int weight is the
C float-to-int conversion, which truncates toward zero; it is modelled by
ctrunc on the rationals.
-/

/-- Quantization model (rpf.h, external): only the mantissa bit count is
relevant to this routine; the alphabet of the model has 2 ^ (bits + 1)
symbols counting sign. -/
structure RPF where
  mantissa_bits : Nat
deriving DecidableEq

/-- The four quantization models reachable from wfa.wfainfo: DC and AC models,
each in a normal and a delta variant. -/
structure WFAInfo where
  dc_rpf : RPF
  d_dc_rpf : RPF
  rpf : RPF
  d_rpf : RPF
deriving DecidableEq

/-- Modelled from the spec: an edge list is terminated by a sentinel non-edge
domain (NO_EDGE of macros.h, missing from src).  Its value only matters as a
nonzero default when a label has no edges at all. -/
def NO_EDGE : Int := -1

/-- One label slot of a state: the range indicator isrange (tree value) and the
ordered domain list into, written without its NO_EDGE terminator.  A domain of
0 is the DC component; any other domain is an AC edge. -/
structure LabelInfo where
  isrange : Bool
  into : List Int
deriving DecidableEq

/-- One non-basis state: its level, its delta approximation flag, and its
MAXLABELS label slots in label order. -/
structure StateInfo where
  level_of_state : Nat
  delta_state : Bool
  tree : List LabelInfo
deriving DecidableEq

/-- The automaton as read_weights sees it: the non-basis states, listed in
ascending state order (the loops run from wfa.basis_states to wfa.states), and
the quantization models. -/
structure WFA where
  states : List StateInfo
  wfainfo : WFAInfo
deriving DecidableEq

/-- Modelled from the spec: MAXLEVEL of macros.h (missing from src), the
maximal tree depth, used only to seed the level minimum of the first pass. -/
def MAXLEVEL : Int := 52

/-- The leading loop of read_weights: delta_approx is set iff some non-basis
state has its delta_state flag. -/
def delta_approx (w : WFA) : Bool :=
  w.states.any (fun s => s.delta_state)

/-- State of the first pass of read_weights: level minima and maxima of the
normal and the delta class, and the two DC-present flags. -/
structure Scan where
  min_level : Int
  max_level : Int
  d_min_level : Int
  d_max_level : Int
  dc : Bool
  d_dc : Bool
deriving DecidableEq

/-- Initial scan state: minima at MAXLEVEL, maxima at 0, flags clear. -/
def initScan : Scan :=
  { min_level := MAXLEVEL, max_level := 0
    d_min_level := MAXLEVEL, d_max_level := 0
    dc := false, d_dc := false }

/-- First pass, body for one label slot: a range label updates the level range
of the class of its state and, when its first edge has domain 0, the DC flag of
that class. -/
def scanLabel (da : Bool) (s : StateInfo) (l : LabelInfo) (a : Scan) : Scan :=
  if l.isrange then
    if da && s.delta_state then
      { a with
        d_min_level := min a.d_min_level ((s.level_of_state : Int) - 1)
        d_max_level := max a.d_max_level ((s.level_of_state : Int) - 1)
        d_dc := a.d_dc || (l.into.headD NO_EDGE == 0) }
    else
      { a with
        min_level := min a.min_level ((s.level_of_state : Int) - 1)
        max_level := max a.max_level ((s.level_of_state : Int) - 1)
        dc := a.dc || (l.into.headD NO_EDGE == 0) }
  else a

/-- First pass, body for one state: fold over its label slots. -/
def scanState (da : Bool) (s : StateInfo) (a : Scan) : Scan :=
  s.tree.foldl (fun acc l => scanLabel da s l acc) a

/-- First pass of read_weights over all non-basis states. -/
def scanWFA (w : WFA) : Scan :=
  w.states.foldl (fun acc s => scanState (delta_approx w) s acc) initScan

/-- The empty-range fix of read_weights: when a class received no level, its
maximum is pulled to minimum - 1 so that the class has width zero. -/
def fixScan (a : Scan) : Scan :=
  { a with
    max_level := if a.min_level > a.max_level then a.min_level - 1 else a.max_level
    d_max_level := if a.d_min_level > a.d_max_level then a.d_min_level - 1
                   else a.d_max_level }

/-- The four cumulative probability model offsets of read_weights. -/
structure Offsets where
  offset1 : Int
  offset2 : Int
  offset3 : Int
  offset4 : Int
deriving DecidableEq

/-- Offset computation of read_weights, applied to the fixed scan state. -/
def mkOffsets (a : Scan) : Offsets :=
  let o1 : Int := if a.dc then 1 else 0
  let o2 : Int := o1 + (if a.d_dc then 1 else 0)
  let o3 : Int := o2 + (a.max_level - a.min_level + 1)
  let o4 : Int := o3 + (a.d_max_level - a.d_min_level + 1)
  { offset1 := o1, offset2 := o2, offset3 := o3, offset4 := o4 }

/-- Scan state of read_weights after the empty-range fix. -/
def scanOf (w : WFA) : Scan :=
  fixScan (scanWFA w)

/-- The offsets read_weights computes for an automaton. -/
def offsetsOf (w : WFA) : Offsets :=
  mkOffsets (scanOf w)

/-- Context id assigned to one edge by the second pass of read_weights. -/
def edgeId (da : Bool) (off : Offsets) (a : Scan) (s : StateInfo)
    (domain : Int) : Int :=
  if domain ≠ 0 then
    if da && s.delta_state then
      off.offset3 + (s.level_of_state : Int) - 1 - a.d_min_level
    else
      off.offset2 + (s.level_of_state : Int) - 1 - a.min_level
  else
    if da && s.delta_state then off.offset1 else 0

/-- Error text of the budget check of the second pass, standing for
error("Can not read more than %d weights.", total). -/
def budgetError : String := "cannot read more weights than total"

/-- Second pass, innermost loop: walk the edges of one range label, checking
the budget before each write of a context id. -/
def classifyEdges (da : Bool) (off : Offsets) (a : Scan) (total : Nat)
    (s : StateInfo) (edges : List Int) (acc : List Int) :
    Except String (List Int) :=
  match edges with
  | [] => Except.ok acc
  | domain :: rest =>
      if total ≤ acc.length then Except.error budgetError
      else classifyEdges da off a total s rest (acc ++ [edgeId da off a s domain])

/-- Second pass, label loop of one state. -/
def classifyLabels (da : Bool) (off : Offsets) (a : Scan) (total : Nat)
    (s : StateInfo) (labels : List LabelInfo) (acc : List Int) :
    Except String (List Int) :=
  match labels with
  | [] => Except.ok acc
  | l :: rest =>
      if l.isrange then
        Except.bind (classifyEdges da off a total s l.into acc)
          (fun acc2 => classifyLabels da off a total s rest acc2)
      else classifyLabels da off a total s rest acc

/-- Second pass, state loop. -/
def classifyStates (da : Bool) (off : Offsets) (a : Scan) (total : Nat)
    (states : List StateInfo) (acc : List Int) : Except String (List Int) :=
  match states with
  | [] => Except.ok acc
  | s :: rest =>
      Except.bind (classifyLabels da off a total s s.tree acc)
        (fun acc2 => classifyStates da off a total rest acc2)

/-- The whole classification pass of read_weights. -/
def classify (total : Nat) (w : WFA) : Except String (List Int) :=
  classifyStates (delta_approx w) (offsetsOf w) (scanOf w) total w.states []

/-- The level array handed to decode_array: the written context ids followed
by the zero fill of the calloc allocation of length total. -/
def levelArray (total : Nat) (w : WFA) : Except String (List Int) :=
  Except.bind (classify total w)
    (fun ids => Except.ok (ids ++ List.replicate (total - ids.length) 0))

/-- The c_symbols table of read_weights: initial per-context alphabet sizes,
built by a write to index 0, a conditional write to index offset1, and two
range loops, over a zero calloc allocation of length offset4. -/
def cSymbols (info : WFAInfo) (off : Offsets) : List Nat :=
  let a0 := List.replicate off.offset4.toNat 0
  let a1 := a0.set 0 (1 <<< (info.dc_rpf.mantissa_bits + 1))
  let a2 := if off.offset1 ≠ off.offset2 then
              a1.set off.offset1.toNat (1 <<< (info.d_dc_rpf.mantissa_bits + 1))
            else a1
  let a3 := (List.range' off.offset2.toNat
               (off.offset3.toNat - off.offset2.toNat)).foldl
              (fun acc i => acc.set i (1 <<< (info.rpf.mantissa_bits + 1))) a2
  (List.range' off.offset3.toNat
     (off.offset4.toNat - off.offset3.toNat)).foldl
    (fun acc i => acc.set i (1 <<< (info.d_rpf.mantissa_bits + 1))) a3

/-- The sequence of indices the c_symbols construction writes, in write order;
index validity against the allocation length offset4 is stated over this list. -/
def cSymbolWrites (off : Offsets) : List Nat :=
  [0]
    ++ (if off.offset1 ≠ off.offset2 then [off.offset1.toNat] else [])
    ++ List.range' off.offset2.toNat (off.offset3.toNat - off.offset2.toNat)
    ++ List.range' off.offset3.toNat (off.offset4.toNat - off.offset3.toNat)

/-- Scaling constant of the probability model handed to decode_array. -/
def weightScale : Nat := 500

/-- Quantization model chosen for one edge by the writeback pass. -/
def edgeRPF (da : Bool) (info : WFAInfo) (s : StateInfo) (domain : Int) : RPF :=
  if domain ≠ 0 then
    if da && s.delta_state then info.d_rpf else info.rpf
  else
    if da && s.delta_state then info.d_dc_rpf else info.dc_rpf

/-- The C conversion of a real value to int: truncation toward zero. -/
def ctrunc (q : ℚ) : Int :=
  if 0 ≤ q then ⌊q⌋ else ⌈q⌉

/-- Real and fixed-point weight stored on an edge: the int weight is the
float-to-int conversion of weight times 512 plus one half. -/
def storeWeight (v : ℚ) : ℚ × Int :=
  (v, ctrunc (v * 512 + 1 / 2))

/-- Writeback pass, innermost loop: walk the edges of one range label,
consuming one decoded symbol per edge through the moving pointer wptr.  The
decoder always yields total symbols, at least one per edge reached here, so
the default 0 of headD is never consulted on a reachable path. -/
def wbEdges (da : Bool) (info : WFAInfo) (btor : Nat → RPF → ℚ)
    (s : StateInfo) (edges : List Int) (syms : List Nat)
    (acc : List (ℚ × Int)) : List (ℚ × Int) × List Nat :=
  match edges with
  | [] => (acc, syms)
  | domain :: rest =>
      wbEdges da info btor s rest syms.tail
        (acc ++ [storeWeight (btor (syms.headD 0) (edgeRPF da info s domain))])

/-- Writeback pass, label loop of one state. -/
def wbLabels (da : Bool) (info : WFAInfo) (btor : Nat → RPF → ℚ)
    (s : StateInfo) (labels : List LabelInfo) (syms : List Nat)
    (acc : List (ℚ × Int)) : List (ℚ × Int) × List Nat :=
  match labels with
  | [] => (acc, syms)
  | l :: rest =>
      if l.isrange then
        wbLabels da info btor s rest
          (wbEdges da info btor s l.into syms acc).2
          (wbEdges da info btor s l.into syms acc).1
      else wbLabels da info btor s rest syms acc

/-- Writeback pass, state loop. -/
def wbStates (da : Bool) (info : WFAInfo) (btor : Nat → RPF → ℚ)
    (states : List StateInfo) (syms : List Nat)
    (acc : List (ℚ × Int)) : List (ℚ × Int) × List Nat :=
  match states with
  | [] => (acc, syms)
  | s :: rest =>
      wbStates da info btor rest
        (wbLabels da info btor s s.tree syms acc).2
        (wbLabels da info btor s s.tree syms acc).1

/-- The whole writeback pass of read_weights, returning the stored real and
fixed-point weight pairs in edge traversal order. -/
def writebackPass (w : WFA) (btor : Nat → RPF → ℚ) (syms : List Nat) :
    List (ℚ × Int) :=
  (wbStates (delta_approx w) w.wfainfo btor w.states syms []).1

/-- read_weights: classification, alphabet construction, the external
arithmetic decode (decode_array, passed as a function), and writeback.  The
result is the list of stored weight pairs, one per qualifying edge. -/
def read_weights (total : Nat) (w : WFA)
    (decode_array : List Int → List Nat → Nat → Nat → Nat → List Nat)
    (btor : Nat → RPF → ℚ) : Except String (List (ℚ × Int)) :=
  Except.bind (levelArray total w)
    (fun level_array =>
      let c_symbols := cSymbols w.wfainfo (offsetsOf w)
      let weights_array := decode_array level_array c_symbols
        (offsetsOf w).offset4.toNat total weightScale
      Except.ok (writebackPass w btor weights_array))

/-!
## Traversal order and context classes

The nested loops of the classification and writeback passes visit, in order,
the non-basis states, the range labels of each state, and the edges of each
such label.  qualifyingEdges materializes that order as a flat list of
state-domain pairs; the loop-shaped definitions above are proved equal to maps
over it.
-/

/-- Edge list contributed by one label slot: the edges of a range label, each
paired with its state, and nothing for a non-range label. -/
def labelEdges (s : StateInfo) (l : LabelInfo) : List (StateInfo × Int) :=
  if l.isrange then l.into.map (fun d => (s, d)) else []

/-- Edge list contributed by one state, in label order. -/
def stateEdges (s : StateInfo) : List (StateInfo × Int) :=
  s.tree.flatMap (labelEdges s)

/-- All qualifying edges of the automaton in traversal order: state ascending,
label ascending among range labels, edge position ascending. -/
def qualifyingEdges (w : WFA) : List (StateInfo × Int) :=
  w.states.flatMap stateEdges

/-- The four context classes: DC or AC, normal or delta. -/
inductive EClass where
  | dcNormal : EClass
  | dcDelta : EClass
  | acNormal : EClass
  | acDelta : EClass
deriving DecidableEq

/-- Class of one edge, from its domain and the delta status of its state. -/
def classOfEdge (da : Bool) (s : StateInfo) (domain : Int) : EClass :=
  if domain ≠ 0 then
    if da && s.delta_state then EClass.acDelta else EClass.acNormal
  else
    if da && s.delta_state then EClass.dcDelta else EClass.dcNormal

/-- Quantization model of each context class. -/
def rpfOfClass (info : WFAInfo) : EClass → RPF
  | EClass.dcNormal => info.dc_rpf
  | EClass.dcDelta => info.d_dc_rpf
  | EClass.acNormal => info.rpf
  | EClass.acDelta => info.d_rpf

/-- Context id of an edge of a given class. -/
def idOfClass (off : Offsets) (a : Scan) (s : StateInfo) : EClass → Int
  | EClass.dcNormal => 0
  | EClass.dcDelta => off.offset1
  | EClass.acNormal => off.offset2 + (s.level_of_state : Int) - 1 - a.min_level
  | EClass.acDelta => off.offset3 + (s.level_of_state : Int) - 1 - a.d_min_level

/-!
## Helper views of the first pass, spec readings, and concrete automata
-/

/-- Range labels of one state paired with the state, provided the state
belongs to the class given by d (true for the delta class). -/
def labPairs (da : Bool) (d : Bool) (s : StateInfo) :
    List (StateInfo × LabelInfo) :=
  if (da && s.delta_state) = d then
    (s.tree.filter (fun l => l.isrange)).map (fun l => (s, l))
  else []

/-- All range labels of the class given by d, in traversal order. -/
def classLabels (w : WFA) (d : Bool) : List (StateInfo × LabelInfo) :=
  w.states.flatMap (labPairs (delta_approx w) d)

/-- Level fold of the first pass: minimum of level - 1 over labels, seeded. -/
def accMin (xs : List (StateInfo × LabelInfo)) (a : Int) : Int :=
  xs.foldl (fun m p => min m ((p.1.level_of_state : Int) - 1)) a

/-- Level fold of the first pass: maximum of level - 1 over labels, seeded. -/
def accMax (xs : List (StateInfo × LabelInfo)) (a : Int) : Int :=
  xs.foldl (fun m p => max m ((p.1.level_of_state : Int) - 1)) a

/-- DC flag fold of the first pass: true once a label with first edge of
domain 0 has been seen. -/
def accDC (xs : List (StateInfo × LabelInfo)) (b : Bool) : Bool :=
  xs.foldl (fun c p => c || (p.2.into.headD NO_EDGE == 0)) b

/-- Level minimum of the class given by c: the delta one for c true. -/
def minOf (c : Bool) (a : Scan) : Int :=
  if c then a.d_min_level else a.min_level

/-- Level maximum of the class given by c. -/
def maxOf (c : Bool) (a : Scan) : Int :=
  if c then a.d_max_level else a.max_level

/-- DC flag of the class given by c. -/
def dcOf (c : Bool) (a : Scan) : Bool :=
  if c then a.d_dc else a.dc

/-- Modelled from the spec: the reading of the claim that the first pass
ranges over the edges with non-zero domain; this lists level - 1 once per AC
edge of the class given by d, to be compared with the per-label fold the code
performs. -/
def acEdgeLevelsSpec (w : WFA) (d : Bool) : List Int :=
  (qualifyingEdges w).filterMap (fun p =>
    if p.2 ≠ 0 ∧ (delta_approx w && p.1.delta_state) = d then
      some ((p.1.level_of_state : Int) - 1)
    else none)

/-- Modelled from the spec: the reading of the claim that the DC flag of a
class is set exactly when some edge of the class has domain 0, at any edge
position. -/
def dcEdgeExistsSpec (w : WFA) (d : Bool) : Bool :=
  (qualifyingEdges w).any (fun p =>
    p.2 = 0 ∧ (delta_approx w && p.1.delta_state) = d)

/-- Concrete quantization models with four distinct mantissa widths. -/
def infoX : WFAInfo := ⟨⟨3⟩, ⟨4⟩, ⟨5⟩, ⟨6⟩⟩

/-- Concrete scenario of the spec: one non-basis state at level 3, not delta,
one range label with a DC edge and an AC edge with domain 7. -/
def wTwoEdges : WFA :=
  ⟨[⟨3, false, [⟨true, [0, 7]⟩, ⟨false, []⟩, ⟨false, []⟩, ⟨false, []⟩]⟩], infoX⟩

/-- Concrete automaton whose only range label carries a single DC edge: the
non-delta class has no AC edge, yet the label contributes its level. -/
def wDCOnly : WFA := ⟨[⟨3, false, [⟨true, [0]⟩]⟩], infoX⟩

/-- Concrete automaton with a DC edge at edge position 1 behind an AC edge:
the first pass misses it when setting the DC flag. -/
def wDCLater : WFA := ⟨[⟨3, false, [⟨true, [7, 0]⟩]⟩], infoX⟩

/-- Concrete automaton whose only weight is a DC edge of a delta state: the
DC delta context gets id offset1 = 0 and overwrites table entry 0. -/
def wDeltaDC : WFA := ⟨[⟨3, true, [⟨true, [0]⟩]⟩], infoX⟩

/-- Concrete automaton with no non-basis state at all. -/
def wEmpty : WFA := ⟨[], infoX⟩

/-- Concrete stand-in for the external arithmetic decoder: total zero
symbols, of the declared length. -/
def decodeZero : List Int → List Nat → Nat → Nat → Nat → List Nat :=
  fun _ _ _ t _ => List.replicate t 0

/-- Concrete stand-in for the bits-to-real inversion: a constant mapping. -/
def btorConst (q : ℚ) : Nat → RPF → ℚ :=
  fun _ _ => q

/-!
## Context classes factor both passes
-/

theorem except_ok_bind {ε α β : Type} (x : α) (f : α → Except ε β) :
    Except.bind (Except.ok x) f = f x := rfl

theorem except_error_bind {ε α β : Type} (e : ε) (f : α → Except ε β) :
    Except.bind (Except.error e : Except ε α) f = Except.error e := rfl

theorem edgeRPF_eq_class (da : Bool) (info : WFAInfo) (s : StateInfo)
    (domain : Int) :
    edgeRPF da info s domain = rpfOfClass info (classOfEdge da s domain) := by
  unfold edgeRPF classOfEdge rpfOfClass
  by_cases h : domain ≠ 0 <;> by_cases h2 : da && s.delta_state <;> simp [h, h2]

theorem edgeId_eq_class (da : Bool) (off : Offsets) (a : Scan) (s : StateInfo)
    (domain : Int) :
    edgeId da off a s domain = idOfClass off a s (classOfEdge da s domain) := by
  unfold edgeId classOfEdge idOfClass
  by_cases h : domain ≠ 0 <;> by_cases h2 : da && s.delta_state <;>
    simp [h, h2]

/-!
## The classification loop as a map over the qualifying edges

The budget check of the second pass fires exactly when a further edge exists
while the written count has already reached total; under the invariant that
the written count never exceeds total, each loop level is the map of edgeId
over its slice of the traversal, guarded by one length comparison.
-/

theorem classifyEdges_eq (da : Bool) (off : Offsets) (a : Scan) (total : Nat)
    (s : StateInfo) :
    ∀ (edges : List Int) (acc : List Int), acc.length ≤ total →
      classifyEdges da off a total s edges acc =
        if acc.length + edges.length ≤ total then
          Except.ok (acc ++ edges.map (edgeId da off a s))
        else Except.error budgetError := by
  intro edges
  induction edges with
  | nil =>
      intro acc h
      simp only [classifyEdges, List.length_nil, Nat.add_zero, List.map_nil,
        List.append_nil, if_pos h]
  | cons d rest ih =>
      intro acc h
      rw [classifyEdges]
      by_cases h0 : total ≤ acc.length
      · have hn : ¬ (acc.length + (d :: rest).length ≤ total) := by
          simp only [List.length_cons]; omega
        rw [if_pos h0, if_neg hn]
      · rw [if_neg h0]
        have h1 : (acc ++ [edgeId da off a s d]).length ≤ total := by
          simp only [List.length_append, List.length_cons, List.length_nil]
          omega
        rw [ih _ h1]
        simp only [List.length_append, List.length_cons, List.length_nil,
          List.map_cons, List.append_assoc, List.cons_append, List.nil_append]
        by_cases h2 : acc.length + (rest.length + 1) ≤ total
        · rw [if_pos (by omega), if_pos (by omega)]
        · rw [if_neg (by omega), if_neg (by omega)]

theorem classifyLabels_eq (da : Bool) (off : Offsets) (a : Scan) (total : Nat)
    (s : StateInfo) :
    ∀ (labels : List LabelInfo) (acc : List Int), acc.length ≤ total →
      classifyLabels da off a total s labels acc =
        if acc.length + (labels.flatMap (labelEdges s)).length ≤ total then
          Except.ok (acc ++ (labels.flatMap (labelEdges s)).map
            (fun p => edgeId da off a p.1 p.2))
        else Except.error budgetError := by
  intro labels
  induction labels with
  | nil =>
      intro acc h
      simp only [classifyLabels, List.flatMap_nil, List.length_nil,
        Nat.add_zero, List.map_nil, List.append_nil, if_pos h]
  | cons l rest ih =>
      intro acc h
      rw [classifyLabels]
      by_cases hr : l.isrange
      · rw [if_pos hr, classifyEdges_eq da off a total s l.into acc h]
        have hle : labelEdges s l = l.into.map (fun d => (s, d)) := by
          simp [labelEdges, hr]
        by_cases h1 : acc.length + l.into.length ≤ total
        · rw [if_pos h1, except_ok_bind,
            ih _ (by simp only [List.length_append, List.length_map]; omega)]
          simp only [List.flatMap_cons, hle, List.length_append,
            List.length_map, List.map_append, List.map_map, List.append_assoc]
          by_cases h2 : acc.length + l.into.length
              + (rest.flatMap (labelEdges s)).length ≤ total
          · rw [if_pos (by omega), if_pos (by omega)]
            simp [Function.comp]
          · rw [if_neg (by omega), if_neg (by omega)]
        · rw [if_neg h1, except_error_bind,
            if_neg (by
              simp only [List.flatMap_cons, hle, List.length_append,
                List.length_map]
              omega)]
      · rw [if_neg hr, ih _ h]
        have he : labelEdges s l = [] := by simp [labelEdges, hr]
        simp only [List.flatMap_cons, he, List.nil_append]

theorem classifyStates_eq (da : Bool) (off : Offsets) (a : Scan) (total : Nat) :
    ∀ (states : List StateInfo) (acc : List Int), acc.length ≤ total →
      classifyStates da off a total states acc =
        if acc.length + (states.flatMap stateEdges).length ≤ total then
          Except.ok (acc ++ (states.flatMap stateEdges).map
            (fun p => edgeId da off a p.1 p.2))
        else Except.error budgetError := by
  intro states
  induction states with
  | nil =>
      intro acc h
      simp only [classifyStates, List.flatMap_nil, List.length_nil,
        Nat.add_zero, List.map_nil, List.append_nil, if_pos h]
  | cons s rest ih =>
      intro acc h
      rw [classifyStates, classifyLabels_eq da off a total s s.tree acc h]
      by_cases h1 : acc.length + (s.tree.flatMap (labelEdges s)).length ≤ total
      · rw [if_pos h1, except_ok_bind,
          ih _ (by simp only [List.length_append, List.length_map]; omega)]
        simp only [List.flatMap_cons, stateEdges, List.length_append,
          List.length_map, List.map_append, List.append_assoc]
        by_cases h2 : acc.length + (s.tree.flatMap (labelEdges s)).length
            + (rest.flatMap stateEdges).length ≤ total
        · rw [if_pos (by omega), if_pos (by omega)]
        · rw [if_neg (by omega), if_neg (by omega)]
      · rw [if_neg h1, except_error_bind,
          if_neg (by
            simp only [List.flatMap_cons, stateEdges, List.length_append,
              List.length_map]
            omega)]

theorem classify_eq (total : Nat) (w : WFA) :
    classify total w =
      if (qualifyingEdges w).length ≤ total then
        Except.ok ((qualifyingEdges w).map
          (fun p => edgeId (delta_approx w) (offsetsOf w) (scanOf w) p.1 p.2))
      else Except.error budgetError := by
  rw [classify,
    classifyStates_eq (delta_approx w) (offsetsOf w) (scanOf w) total w.states []
      (by simp)]
  simp [qualifyingEdges]

/-!
## The writeback loop as a zip with the decoded symbols
-/

theorem zip_append_drop {α β : Type} (A B : List α) :
    ∀ (s : List β), A.length ≤ s.length →
      (A ++ B).zip s = A.zip s ++ B.zip (s.drop A.length) := by
  induction A with
  | nil => intro s h; simp
  | cons x xs ih =>
      intro s h
      cases s with
      | nil => simp at h
      | cons y ys =>
          simp only [List.cons_append, List.zip_cons_cons, List.length_cons,
            List.drop_succ_cons]
          rw [ih ys (by simp at h; omega)]

theorem wbEdges_eq (da : Bool) (info : WFAInfo) (btor : Nat → RPF → ℚ)
    (s : StateInfo) :
    ∀ (edges : List Int) (syms : List Nat) (acc : List (ℚ × Int)),
      edges.length ≤ syms.length →
      wbEdges da info btor s edges syms acc =
        (acc ++ (edges.zip syms).map
           (fun p => storeWeight (btor p.2 (edgeRPF da info s p.1))),
         syms.drop edges.length) := by
  intro edges
  induction edges with
  | nil => intro syms acc h; simp [wbEdges]
  | cons d rest ih =>
      intro syms acc h
      cases syms with
      | nil => simp at h
      | cons y ys =>
          rw [wbEdges]
          simp only [List.tail_cons, List.headD_cons]
          rw [ih ys _ (by simp at h; omega)]
          simp only [List.zip_cons_cons, List.map_cons, List.length_cons,
            List.drop_succ_cons, List.append_assoc, List.cons_append,
            List.nil_append]

theorem wbLabels_eq (da : Bool) (info : WFAInfo) (btor : Nat → RPF → ℚ)
    (s : StateInfo) :
    ∀ (labels : List LabelInfo) (syms : List Nat) (acc : List (ℚ × Int)),
      (labels.flatMap (labelEdges s)).length ≤ syms.length →
      wbLabels da info btor s labels syms acc =
        (acc ++ ((labels.flatMap (labelEdges s)).zip syms).map
           (fun p => storeWeight (btor p.2 (edgeRPF da info p.1.1 p.1.2))),
         syms.drop (labels.flatMap (labelEdges s)).length) := by
  intro labels
  induction labels with
  | nil => intro syms acc h; simp [wbLabels]
  | cons l rest ih =>
      intro syms acc h
      rw [wbLabels]
      by_cases hr : l.isrange
      · have hle : labelEdges s l = l.into.map (fun d => (s, d)) := by
          simp [labelEdges, hr]
        have hlen : ((l :: rest).flatMap (labelEdges s)).length
            = l.into.length + (rest.flatMap (labelEdges s)).length := by
          simp [List.flatMap_cons, hle]
        rw [if_pos hr,
          wbEdges_eq da info btor s l.into syms acc (by omega)]
        simp only []
        rw [ih _ _ (by simp only [List.length_drop]; omega)]
        rw [Prod.mk.injEq]
        constructor
        · simp only [List.flatMap_cons, hle, List.map_append, List.append_assoc]
          rw [zip_append_drop (l.into.map fun d => (s, d)) _ syms
                (by simp only [List.length_map]; omega)]
          simp [List.zip_map_left, List.map_map, Function.comp]
        · rw [List.drop_drop, hlen]
      · rw [if_neg hr, ih _ _ (by
          simp only [List.flatMap_cons, labelEdges, hr] at h ⊢
          simpa using h)]
        have he : labelEdges s l = [] := by simp [labelEdges, hr]
        simp only [List.flatMap_cons, he, List.nil_append]

theorem wbStates_eq (da : Bool) (info : WFAInfo) (btor : Nat → RPF → ℚ) :
    ∀ (states : List StateInfo) (syms : List Nat) (acc : List (ℚ × Int)),
      (states.flatMap stateEdges).length ≤ syms.length →
      wbStates da info btor states syms acc =
        (acc ++ ((states.flatMap stateEdges).zip syms).map
           (fun p => storeWeight (btor p.2 (edgeRPF da info p.1.1 p.1.2))),
         syms.drop (states.flatMap stateEdges).length) := by
  intro states
  induction states with
  | nil => intro syms acc h; simp [wbStates]
  | cons s rest ih =>
      intro syms acc h
      have hlen : ((s :: rest).flatMap stateEdges).length
          = (s.tree.flatMap (labelEdges s)).length
            + (rest.flatMap stateEdges).length := by
        simp [List.flatMap_cons, stateEdges]
      rw [wbStates,
        wbLabels_eq da info btor s s.tree syms acc (by omega)]
      simp only []
      rw [ih _ _ (by simp only [List.length_drop]; omega)]
      rw [Prod.mk.injEq]
      constructor
      · simp only [List.flatMap_cons, stateEdges, List.map_append,
          List.append_assoc]
        rw [zip_append_drop (s.tree.flatMap (labelEdges s)) _ syms (by omega)]
        simp [List.map_append]
      · rw [List.drop_drop, hlen]

theorem writebackPass_eq (w : WFA) (btor : Nat → RPF → ℚ) (syms : List Nat)
    (h : (qualifyingEdges w).length ≤ syms.length) :
    writebackPass w btor syms =
      ((qualifyingEdges w).zip syms).map
        (fun p => storeWeight
          (btor p.2 (edgeRPF (delta_approx w) w.wfainfo p.1.1 p.1.2))) := by
  rw [writebackPass,
    wbStates_eq (delta_approx w) w.wfainfo btor w.states syms []
      (by simpa [qualifyingEdges] using h)]
  simp [qualifyingEdges]

/-!
## Unfolding read_weights on the two sides of the budget check
-/

theorem levelArray_ok (total : Nat) (w : WFA)
    (h : (qualifyingEdges w).length ≤ total) :
    levelArray total w =
      Except.ok (((qualifyingEdges w).map
          (fun p => edgeId (delta_approx w) (offsetsOf w) (scanOf w) p.1 p.2))
        ++ List.replicate (total - (qualifyingEdges w).length) 0) := by
  rw [levelArray, classify_eq, if_pos h, except_ok_bind]
  simp

theorem levelArray_error (total : Nat) (w : WFA)
    (h : total < (qualifyingEdges w).length) :
    levelArray total w = Except.error budgetError := by
  rw [levelArray, classify_eq, if_neg (by omega), except_error_bind]

theorem read_weights_ok (total : Nat) (w : WFA)
    (decode_array : List Int → List Nat → Nat → Nat → Nat → List Nat)
    (btor : Nat → RPF → ℚ)
    (h : (qualifyingEdges w).length ≤ total) :
    read_weights total w decode_array btor =
      Except.ok (writebackPass w btor
        (decode_array
          (((qualifyingEdges w).map
              (fun p => edgeId (delta_approx w) (offsetsOf w) (scanOf w) p.1 p.2))
            ++ List.replicate (total - (qualifyingEdges w).length) 0)
          (cSymbols w.wfainfo (offsetsOf w))
          (offsetsOf w).offset4.toNat total weightScale)) := by
  rw [read_weights, levelArray_ok total w h, except_ok_bind]

theorem read_weights_error (total : Nat) (w : WFA)
    (decode_array : List Int → List Nat → Nat → Nat → Nat → List Nat)
    (btor : Nat → RPF → ℚ)
    (h : total < (qualifyingEdges w).length) :
    read_weights total w decode_array btor = Except.error budgetError := by
  rw [read_weights, levelArray_error total w h, except_error_bind]

/-!
## The first pass computes per-label folds over each class
-/

theorem scanLabel_minOf (da : Bool) (s : StateInfo) (l : LabelInfo) (a : Scan)
    (c : Bool) :
    minOf c (scanLabel da s l a) =
      if l.isrange = true ∧ (da && s.delta_state) = c then
        min (minOf c a) ((s.level_of_state : Int) - 1)
      else minOf c a := by
  cases hd : (da && s.delta_state) <;> by_cases hr : l.isrange <;>
    cases c <;>
    simp [scanLabel, minOf, hd, hr]

theorem scanLabel_maxOf (da : Bool) (s : StateInfo) (l : LabelInfo) (a : Scan)
    (c : Bool) :
    maxOf c (scanLabel da s l a) =
      if l.isrange = true ∧ (da && s.delta_state) = c then
        max (maxOf c a) ((s.level_of_state : Int) - 1)
      else maxOf c a := by
  cases hd : (da && s.delta_state) <;> by_cases hr : l.isrange <;>
    cases c <;>
    simp [scanLabel, maxOf, hd, hr]

theorem scanLabel_dcOf (da : Bool) (s : StateInfo) (l : LabelInfo) (a : Scan)
    (c : Bool) :
    dcOf c (scanLabel da s l a) =
      if l.isrange = true ∧ (da && s.delta_state) = c then
        dcOf c a || (l.into.headD NO_EDGE == 0)
      else dcOf c a := by
  cases hd : (da && s.delta_state) <;> by_cases hr : l.isrange <;>
    cases c <;>
    simp [scanLabel, dcOf, hd, hr]

theorem scanState_minOf (da : Bool) (s : StateInfo) (c : Bool) :
    ∀ (labels : List LabelInfo) (a : Scan),
      minOf c (labels.foldl (fun acc l => scanLabel da s l acc) a) =
        accMin (if (da && s.delta_state) = c then
            (labels.filter (fun l => l.isrange)).map (fun l => (s, l))
          else []) (minOf c a) := by
  intro labels
  induction labels with
  | nil =>
      intro a
      by_cases hd : (da && s.delta_state) = c <;> simp [hd, accMin]
  | cons l rest ih =>
      intro a
      rw [List.foldl_cons, ih]
      by_cases hd : (da && s.delta_state) = c
      · by_cases hr : l.isrange
        · rw [scanLabel_minOf]
          simp [hd, hr, accMin]
        · rw [scanLabel_minOf]
          simp [hd, hr]
      · rw [scanLabel_minOf]
        simp [hd]

theorem scanState_maxOf (da : Bool) (s : StateInfo) (c : Bool) :
    ∀ (labels : List LabelInfo) (a : Scan),
      maxOf c (labels.foldl (fun acc l => scanLabel da s l acc) a) =
        accMax (if (da && s.delta_state) = c then
            (labels.filter (fun l => l.isrange)).map (fun l => (s, l))
          else []) (maxOf c a) := by
  intro labels
  induction labels with
  | nil =>
      intro a
      by_cases hd : (da && s.delta_state) = c <;> simp [hd, accMax]
  | cons l rest ih =>
      intro a
      rw [List.foldl_cons, ih]
      by_cases hd : (da && s.delta_state) = c
      · by_cases hr : l.isrange
        · rw [scanLabel_maxOf]
          simp [hd, hr, accMax]
        · rw [scanLabel_maxOf]
          simp [hd, hr]
      · rw [scanLabel_maxOf]
        simp [hd]

theorem scanState_dcOf (da : Bool) (s : StateInfo) (c : Bool) :
    ∀ (labels : List LabelInfo) (a : Scan),
      dcOf c (labels.foldl (fun acc l => scanLabel da s l acc) a) =
        accDC (if (da && s.delta_state) = c then
            (labels.filter (fun l => l.isrange)).map (fun l => (s, l))
          else []) (dcOf c a) := by
  intro labels
  induction labels with
  | nil =>
      intro a
      by_cases hd : (da && s.delta_state) = c <;> simp [hd, accDC]
  | cons l rest ih =>
      intro a
      rw [List.foldl_cons, ih]
      by_cases hd : (da && s.delta_state) = c
      · by_cases hr : l.isrange
        · rw [scanLabel_dcOf]
          simp [hd, hr, accDC]
        · rw [scanLabel_dcOf]
          simp [hd, hr]
      · rw [scanLabel_dcOf]
        simp [hd]

theorem scanWFA_minOf (w : WFA) (c : Bool) :
    minOf c (scanWFA w) = accMin (classLabels w c) MAXLEVEL := by
  have key : ∀ (states : List StateInfo) (a : Scan),
      minOf c (states.foldl (fun acc s => scanState (delta_approx w) s acc) a)
        = accMin (states.flatMap (labPairs (delta_approx w) c)) (minOf c a) := by
    intro states
    induction states with
    | nil => intro a; simp [accMin]
    | cons s rest ih =>
        intro a
        rw [List.foldl_cons, ih, List.flatMap_cons]
        unfold accMin
        rw [List.foldl_append]
        congr 1
        rw [show scanState (delta_approx w) s a
              = s.tree.foldl (fun acc l => scanLabel (delta_approx w) s l acc) a
            from rfl,
          scanState_minOf]
        unfold labPairs accMin
        rfl
  rw [scanWFA, key, classLabels]
  congr 1
  cases c <;> rfl

theorem scanWFA_maxOf (w : WFA) (c : Bool) :
    maxOf c (scanWFA w) = accMax (classLabels w c) 0 := by
  have key : ∀ (states : List StateInfo) (a : Scan),
      maxOf c (states.foldl (fun acc s => scanState (delta_approx w) s acc) a)
        = accMax (states.flatMap (labPairs (delta_approx w) c)) (maxOf c a) := by
    intro states
    induction states with
    | nil => intro a; simp [accMax]
    | cons s rest ih =>
        intro a
        rw [List.foldl_cons, ih, List.flatMap_cons]
        unfold accMax
        rw [List.foldl_append]
        congr 1
        rw [show scanState (delta_approx w) s a
              = s.tree.foldl (fun acc l => scanLabel (delta_approx w) s l acc) a
            from rfl,
          scanState_maxOf]
        unfold labPairs accMax
        rfl
  rw [scanWFA, key, classLabels]
  congr 1
  cases c <;> rfl

theorem scanWFA_dcOf (w : WFA) (c : Bool) :
    dcOf c (scanWFA w) = accDC (classLabels w c) false := by
  have key : ∀ (states : List StateInfo) (a : Scan),
      dcOf c (states.foldl (fun acc s => scanState (delta_approx w) s acc) a)
        = accDC (states.flatMap (labPairs (delta_approx w) c)) (dcOf c a) := by
    intro states
    induction states with
    | nil => intro a; simp [accDC]
    | cons s rest ih =>
        intro a
        rw [List.foldl_cons, ih, List.flatMap_cons]
        unfold accDC
        rw [List.foldl_append]
        congr 1
        rw [show scanState (delta_approx w) s a
              = s.tree.foldl (fun acc l => scanLabel (delta_approx w) s l acc) a
            from rfl,
          scanState_dcOf]
        unfold labPairs accDC
        rfl
  rw [scanWFA, key, classLabels]
  congr 1
  cases c <;> rfl

/-!
## Fold bounds and membership facts
-/

theorem accMin_le_init (xs : List (StateInfo × LabelInfo)) :
    ∀ (a : Int), accMin xs a ≤ a := by
  induction xs with
  | nil => intro a; simp [accMin]
  | cons q rest ih =>
      intro a
      have h := ih (min a ((q.1.level_of_state : Int) - 1))
      calc accMin (q :: rest) a
          = accMin rest (min a ((q.1.level_of_state : Int) - 1)) := rfl
        _ ≤ min a ((q.1.level_of_state : Int) - 1) := h
        _ ≤ a := min_le_left _ _

theorem accMin_le_mem (xs : List (StateInfo × LabelInfo))
    (p : StateInfo × LabelInfo) :
    ∀ (a : Int), p ∈ xs → accMin xs a ≤ (p.1.level_of_state : Int) - 1 := by
  induction xs with
  | nil => intro a h; simp at h
  | cons q rest ih =>
      intro a h
      rcases List.mem_cons.1 h with h1 | h2
      · subst h1
        calc accMin (p :: rest) a
            = accMin rest (min a ((p.1.level_of_state : Int) - 1)) := rfl
          _ ≤ min a ((p.1.level_of_state : Int) - 1) := accMin_le_init rest _
          _ ≤ (p.1.level_of_state : Int) - 1 := min_le_right _ _
      · exact ih _ h2

theorem init_le_accMax (xs : List (StateInfo × LabelInfo)) :
    ∀ (a : Int), a ≤ accMax xs a := by
  induction xs with
  | nil => intro a; simp [accMax]
  | cons q rest ih =>
      intro a
      calc a ≤ max a ((q.1.level_of_state : Int) - 1) := le_max_left _ _
        _ ≤ accMax rest (max a ((q.1.level_of_state : Int) - 1)) := ih _
        _ = accMax (q :: rest) a := rfl

theorem mem_le_accMax (xs : List (StateInfo × LabelInfo))
    (p : StateInfo × LabelInfo) :
    ∀ (a : Int), p ∈ xs → (p.1.level_of_state : Int) - 1 ≤ accMax xs a := by
  induction xs with
  | nil => intro a h; simp at h
  | cons q rest ih =>
      intro a h
      rcases List.mem_cons.1 h with h1 | h2
      · subst h1
        calc (p.1.level_of_state : Int) - 1
            ≤ max a ((p.1.level_of_state : Int) - 1) := le_max_right _ _
          _ ≤ accMax rest (max a ((p.1.level_of_state : Int) - 1)) :=
              init_le_accMax rest _
          _ = accMax (p :: rest) a := rfl
      · exact ih _ h2

theorem mem_qualifyingEdges_elim (w : WFA) (p : StateInfo × Int)
    (h : p ∈ qualifyingEdges w) :
    p.1 ∈ w.states ∧ ∃ l, l ∈ p.1.tree ∧ l.isrange = true ∧ p.2 ∈ l.into := by
  rw [qualifyingEdges, List.mem_flatMap] at h
  obtain ⟨s, hs, hp⟩ := h
  rw [stateEdges, List.mem_flatMap] at hp
  obtain ⟨l, hl, hpl⟩ := hp
  rw [labelEdges] at hpl
  by_cases hr : l.isrange
  · rw [if_pos hr, List.mem_map] at hpl
    obtain ⟨d, hd, hpd⟩ := hpl
    subst hpd
    exact ⟨hs, l, hl, hr, hd⟩
  · rw [if_neg hr] at hpl
    simp at hpl

theorem mem_classLabels (w : WFA) (s : StateInfo) (l : LabelInfo)
    (hs : s ∈ w.states) (hl : l ∈ s.tree) (hr : l.isrange = true) :
    (s, l) ∈ classLabels w (delta_approx w && s.delta_state) := by
  rw [classLabels, List.mem_flatMap]
  refine ⟨s, hs, ?_⟩
  rw [labPairs, if_pos rfl, List.mem_map]
  exact ⟨l, List.mem_filter.2 ⟨hl, hr⟩, rfl⟩

theorem edge_level_bounds (w : WFA) (p : StateInfo × Int)
    (h : p ∈ qualifyingEdges w) :
    minOf (delta_approx w && p.1.delta_state) (scanWFA w)
        ≤ (p.1.level_of_state : Int) - 1
      ∧ (p.1.level_of_state : Int) - 1
        ≤ maxOf (delta_approx w && p.1.delta_state) (scanWFA w) := by
  obtain ⟨hs, l, hl, hr, _⟩ := mem_qualifyingEdges_elim w p h
  have hm := mem_classLabels w p.1 l hs hl hr
  constructor
  · rw [scanWFA_minOf]
    exact accMin_le_mem _ (p.1, l) _ hm
  · rw [scanWFA_maxOf]
    exact mem_le_accMax _ (p.1, l) _ hm

/-!
## Offset arithmetic facts
-/

theorem fixScan_min (a : Scan) : (fixScan a).min_level = a.min_level := rfl

theorem fixScan_d_min (a : Scan) : (fixScan a).d_min_level = a.d_min_level := rfl

theorem fixScan_minOf (c : Bool) (a : Scan) :
    minOf c (fixScan a) = minOf c a := by
  cases c <;> rfl

theorem fixScan_maxOf_of_le (c : Bool) (a : Scan)
    (h : minOf c a ≤ maxOf c a) :
    maxOf c (fixScan a) = maxOf c a := by
  cases c <;>
    simp_all [fixScan, minOf, maxOf]

theorem fixScan_dcOf (c : Bool) (a : Scan) : dcOf c (fixScan a) = dcOf c a := by
  cases c <;> rfl

theorem mkOffsets_spec (a : Scan) :
    (mkOffsets a).offset1 = (if a.dc then 1 else 0)
    ∧ (mkOffsets a).offset2
        = (mkOffsets a).offset1 + (if a.d_dc then 1 else 0)
    ∧ (mkOffsets a).offset3
        = (mkOffsets a).offset2 + (a.max_level - a.min_level + 1)
    ∧ (mkOffsets a).offset4
        = (mkOffsets a).offset3 + (a.d_max_level - a.d_min_level + 1) := by
  simp [mkOffsets]

theorem fixScan_width_nonneg (c : Bool) (a : Scan) :
    0 ≤ maxOf c (fixScan a) - minOf c (fixScan a) + 1 := by
  cases c <;> simp [fixScan, minOf, maxOf] <;> split <;> omega

/-- Each qualifying edge receives a context id inside the id space of the
offsets: the heart of the index validity argument. -/
theorem edgeId_in_range (w : WFA) (p : StateInfo × Int)
    (h : p ∈ qualifyingEdges w) :
    0 ≤ edgeId (delta_approx w) (offsetsOf w) (scanOf w) p.1 p.2
    ∧ edgeId (delta_approx w) (offsetsOf w) (scanOf w) p.1 p.2
        < (offsetsOf w).offset4 := by
  have hb := edge_level_bounds w p h
  have hsc : scanOf w = fixScan (scanWFA w) := rfl
  have hb2 : minOf (delta_approx w && p.1.delta_state) (scanOf w)
        ≤ (p.1.level_of_state : Int) - 1
      ∧ (p.1.level_of_state : Int) - 1
        ≤ maxOf (delta_approx w && p.1.delta_state) (scanOf w) := by
    rw [hsc, fixScan_minOf, fixScan_maxOf_of_le _ _ (le_trans hb.1 hb.2)]
    exact hb
  have hwn := fixScan_width_nonneg false (scanWFA w)
  have hwd := fixScan_width_nonneg true (scanWFA w)
  rw [← hsc] at hwn hwd
  obtain ⟨ho1, ho2, ho3, ho4⟩ := mkOffsets_spec (scanOf w)
  have hoff : offsetsOf w = mkOffsets (scanOf w) := rfl
  have hif1 : 0 ≤ (if (scanOf w).dc then (1 : Int) else 0)
      ∧ (if (scanOf w).dc then (1 : Int) else 0) ≤ 1 := by
    split <;> omega
  have hif2 : 0 ≤ (if (scanOf w).d_dc then (1 : Int) else 0)
      ∧ (if (scanOf w).d_dc then (1 : Int) else 0) ≤ 1 := by
    split <;> omega
  simp only [minOf, maxOf] at hwn hwd
  simp only [Bool.false_eq_true, if_false, if_true] at hwn hwd
  rw [edgeId, hoff]
  by_cases hdom : p.2 = 0
  · cases hcv : (delta_approx w && p.1.delta_state) with
    | false =>
        simp only [hcv, minOf, maxOf, Bool.false_eq_true, if_false] at hb2
        simp only [hdom, ne_eq, not_true_eq_false, if_false, hcv,
          Bool.false_eq_true]
        omega
    | true =>
        simp only [hcv, minOf, maxOf, if_true] at hb2
        simp only [hdom, ne_eq, not_true_eq_false, if_false, hcv, if_true]
        omega
  · cases hcv : (delta_approx w && p.1.delta_state) with
    | false =>
        simp only [hcv, minOf, maxOf, Bool.false_eq_true, if_false] at hb2
        simp only [hdom, ne_eq, not_false_eq_true, if_true, hcv,
          Bool.false_eq_true, if_false]
        omega
    | true =>
        simp only [hcv, minOf, maxOf, if_true] at hb2
        simp only [hdom, ne_eq, not_false_eq_true, if_true, hcv]
        omega

/-!
## Contents of the alphabet size table
-/

theorem foldl_set_length (v : Nat) :
    ∀ (ix : List Nat) (l : List Nat),
      (ix.foldl (fun acc i => acc.set i v) l).length = l.length := by
  intro ix
  induction ix with
  | nil => intro l; rfl
  | cons j rest ih =>
      intro l
      rw [List.foldl_cons, ih, List.length_set]

theorem foldl_set_range_get (v : Nat) :
    ∀ (n a : Nat) (l : List Nat) (i : Nat),
      ((List.range' a n).foldl (fun acc j => acc.set j v) l)[i]? =
        if a ≤ i ∧ i < a + n ∧ i < l.length then some v else l[i]? := by
  intro n
  induction n with
  | zero =>
      intro a l i
      rw [if_neg (by omega)]
      rfl
  | succ n ih =>
      intro a l i
      rw [List.range'_succ, List.foldl_cons, ih (a + 1) (l.set a v) i,
        List.length_set]
      by_cases h1 : i = a
      · subst h1
        rw [if_neg (by omega)]
        by_cases h2 : i < l.length
        · rw [List.getElem?_set_eq_of_lt v h2, if_pos (by omega)]
        · rw [List.set_eq_of_length_le (by omega),
            if_neg (by omega)]
      · rw [List.getElem?_set_ne (by omega)]
        by_cases h2 : a ≤ i ∧ i < a + (n + 1) ∧ i < l.length
        · rw [if_pos (by omega), if_pos h2]
        · rw [if_neg (by omega), if_neg h2]

theorem offsetsOf_mono (a : Scan) :
    0 ≤ (mkOffsets (fixScan a)).offset1
    ∧ (mkOffsets (fixScan a)).offset1 ≤ (mkOffsets (fixScan a)).offset2
    ∧ (mkOffsets (fixScan a)).offset2 ≤ (mkOffsets (fixScan a)).offset3
    ∧ (mkOffsets (fixScan a)).offset3 ≤ (mkOffsets (fixScan a)).offset4
    ∧ ((mkOffsets (fixScan a)).offset1 ≠ (mkOffsets (fixScan a)).offset2 →
        (mkOffsets (fixScan a)).offset2 = (mkOffsets (fixScan a)).offset1 + 1) := by
  obtain ⟨ho1, ho2, ho3, ho4⟩ := mkOffsets_spec (fixScan a)
  have hwn := fixScan_width_nonneg false a
  have hwd := fixScan_width_nonneg true a
  simp only [minOf, maxOf, Bool.false_eq_true, if_false, if_true] at hwn hwd
  have hif1 : 0 ≤ (if (fixScan a).dc then (1 : Int) else 0)
      ∧ (if (fixScan a).dc then (1 : Int) else 0) ≤ 1 := by
    split <;> omega
  have hif2 : 0 ≤ (if (fixScan a).d_dc then (1 : Int) else 0)
      ∧ (if (fixScan a).d_dc then (1 : Int) else 0) ≤ 1 := by
    split <;> omega
  refine ⟨by omega, by omega, by omega, by omega, ?_⟩
  intro hne
  rw [ho2] at hne ⊢
  by_cases hdc : (fixScan a).d_dc
  · rw [if_pos hdc]
  · rw [if_neg hdc] at hne
    omega

theorem cSymbols_facts (info : WFAInfo) (off : Offsets)
    (h0 : 0 ≤ off.offset1) (h12 : off.offset1 ≤ off.offset2)
    (h23 : off.offset2 ≤ off.offset3) (h34 : off.offset3 ≤ off.offset4)
    (hne : off.offset1 ≠ off.offset2 → off.offset2 = off.offset1 + 1) :
    (cSymbols info off).length = off.offset4.toNat
    ∧ (∀ i : Nat, off.offset2.toNat ≤ i → i < off.offset3.toNat →
        (cSymbols info off)[i]? = some (2 ^ (info.rpf.mantissa_bits + 1)))
    ∧ (∀ i : Nat, off.offset3.toNat ≤ i → i < off.offset4.toNat →
        (cSymbols info off)[i]? = some (2 ^ (info.d_rpf.mantissa_bits + 1)))
    ∧ (off.offset1 ≠ off.offset2 →
        (cSymbols info off)[off.offset1.toNat]?
          = some (2 ^ (info.d_dc_rpf.mantissa_bits + 1)))
    ∧ (off.offset1 = 1 →
        (cSymbols info off)[0]?
          = some (2 ^ (info.dc_rpf.mantissa_bits + 1))) := by
  have hsh : ∀ m : Nat, (1 <<< (m + 1)) = 2 ^ (m + 1) := fun m =>
    Nat.one_shiftLeft (m + 1)
  have hlen2 : ∀ (l : List Nat),
      (if off.offset1 ≠ off.offset2 then
          l.set off.offset1.toNat (1 <<< (info.d_dc_rpf.mantissa_bits + 1))
        else l).length = l.length := by
    intro l
    split
    · rw [List.length_set]
    · rfl
  constructor
  · rw [cSymbols, foldl_set_length, foldl_set_length, hlen2, List.length_set,
      List.length_replicate]
  refine ⟨?_, ?_, ?_, ?_⟩
  · intro i hi2 hi3
    rw [cSymbols, foldl_set_range_get, foldl_set_range_get]
    rw [if_neg (by
        rw [foldl_set_length, hlen2, List.length_set, List.length_replicate]
        omega),
      if_pos (by
        rw [hlen2, List.length_set, List.length_replicate]
        omega),
      hsh]
  · intro i hi3 hi4
    rw [cSymbols, foldl_set_range_get]
    rw [if_pos (by
        rw [foldl_set_length, hlen2, List.length_set, List.length_replicate]
        omega),
      hsh]
  · intro hd
    have h21 := hne hd
    rw [cSymbols, foldl_set_range_get, foldl_set_range_get]
    rw [if_neg (by
        rw [foldl_set_length, hlen2, List.length_set, List.length_replicate]
        omega),
      if_neg (by
        rw [hlen2, List.length_set, List.length_replicate]
        omega),
      if_pos hd,
      List.getElem?_set_eq_of_lt _ (by
        rw [List.length_set, List.length_replicate]
        omega),
      hsh]
  · intro h1v
    have h2ge : (1 : Int) ≤ off.offset2 := by omega
    rw [cSymbols, foldl_set_range_get, foldl_set_range_get]
    rw [if_neg (by
        rw [foldl_set_length, hlen2, List.length_set, List.length_replicate]
        omega),
      if_neg (by
        rw [hlen2, List.length_set, List.length_replicate]
        omega)]
    have hbase : ((List.replicate off.offset4.toNat 0).set 0
        (1 <<< (info.dc_rpf.mantissa_bits + 1)))[0]?
          = some (2 ^ (info.dc_rpf.mantissa_bits + 1)) := by
      rw [List.getElem?_set_eq_of_lt _ (by
          rw [List.length_replicate]
          omega),
        hsh]
    by_cases hd : off.offset1 ≠ off.offset2
    · rw [if_pos hd, List.getElem?_set_ne (by omega), hbase]
    · rw [if_neg hd, hbase]

/-!
## Remaining auxiliary facts
-/

theorem delta_and_eq (w : WFA) (s : StateInfo) (hs : s ∈ w.states) :
    (delta_approx w && s.delta_state) = s.delta_state := by
  cases hd : s.delta_state
  · simp
  · have : delta_approx w = true := by
      rw [delta_approx, List.any_eq_true]
      exact ⟨s, hs, hd⟩
    rw [this, Bool.true_and]

theorem accDC_or (xs : List (StateInfo × LabelInfo)) :
    ∀ (b : Bool), accDC xs b
      = (b || xs.any (fun p => p.2.into.headD NO_EDGE == 0)) := by
  induction xs with
  | nil => intro b; simp [accDC]
  | cons q rest ih =>
      intro b
      rw [show accDC (q :: rest) b
            = accDC rest (b || (q.2.into.headD NO_EDGE == 0)) from rfl,
        ih, List.any_cons]
      rw [Bool.or_assoc]

theorem wbEdges_mem (da : Bool) (info : WFAInfo) (btor : Nat → RPF → ℚ)
    (s : StateInfo) :
    ∀ (edges : List Int) (syms : List Nat) (acc : List (ℚ × Int))
      (p : ℚ × Int), p ∈ (wbEdges da info btor s edges syms acc).1 →
      p ∈ acc ∨ ∃ v, p = storeWeight v := by
  intro edges
  induction edges with
  | nil => intro syms acc p hp; exact Or.inl hp
  | cons d rest ih =>
      intro syms acc p hp
      rw [wbEdges] at hp
      rcases ih _ _ p hp with h1 | h2
      · rcases List.mem_append.1 h1 with h3 | h4
        · exact Or.inl h3
        · exact Or.inr ⟨_, (List.mem_singleton.1 h4)⟩
      · exact Or.inr h2

theorem wbLabels_mem (da : Bool) (info : WFAInfo) (btor : Nat → RPF → ℚ)
    (s : StateInfo) :
    ∀ (labels : List LabelInfo) (syms : List Nat) (acc : List (ℚ × Int))
      (p : ℚ × Int), p ∈ (wbLabels da info btor s labels syms acc).1 →
      p ∈ acc ∨ ∃ v, p = storeWeight v := by
  intro labels
  induction labels with
  | nil => intro syms acc p hp; exact Or.inl hp
  | cons l rest ih =>
      intro syms acc p hp
      rw [wbLabels] at hp
      by_cases hr : l.isrange
      · rw [if_pos hr] at hp
        rcases ih _ _ p hp with h1 | h2
        · exact wbEdges_mem da info btor s l.into syms acc p h1
        · exact Or.inr h2
      · rw [if_neg hr] at hp
        exact ih _ _ p hp

theorem wbStates_mem (da : Bool) (info : WFAInfo) (btor : Nat → RPF → ℚ) :
    ∀ (states : List StateInfo) (syms : List Nat) (acc : List (ℚ × Int))
      (p : ℚ × Int), p ∈ (wbStates da info btor states syms acc).1 →
      p ∈ acc ∨ ∃ v, p = storeWeight v := by
  intro states
  induction states with
  | nil => intro syms acc p hp; exact Or.inl hp
  | cons s rest ih =>
      intro syms acc p hp
      rw [wbStates] at hp
      rcases ih _ _ p hp with h1 | h2
      · exact wbLabels_mem da info btor s s.tree syms acc p h1
      · exact Or.inr h2

theorem ctrunc_round_of_nonneg (q : ℚ) (h : 0 ≤ q) :
    ctrunc (q * 512 + 1 / 2) = round (q * 512) := by
  have h0 : (0 : ℚ) ≤ q * 512 + 1 / 2 := by positivity
  rw [ctrunc, if_pos h0, round_eq]

/-!
## Claims
-/

/-- C1: visiting qualifying edges in order of ascending non-basis state,
ascending range label, ascending edge position, the classification pass
assigns context id 0 for a DC edge of a non-delta state, offset1 for a DC
edge of a delta state, offset2 + (level - 1 - min_level) for an AC edge of a
non-delta state, and offset3 + (level - 1 - d_min_level) for an AC edge of a
delta state, when the edge count fits the budget. -/
theorem claim_C1 (w : WFA) (total : Nat)
    (h : (qualifyingEdges w).length ≤ total) :
    classify total w = Except.ok ((qualifyingEdges w).map (fun p =>
      if p.2 = 0 then
        (if p.1.delta_state then (offsetsOf w).offset1 else 0)
      else
        (if p.1.delta_state then
          (offsetsOf w).offset3
            + ((p.1.level_of_state : Int) - 1 - (scanOf w).d_min_level)
        else
          (offsetsOf w).offset2
            + ((p.1.level_of_state : Int) - 1 - (scanOf w).min_level)))) := by
  rw [classify_eq, if_pos h]
  congr 1
  apply List.map_congr_left
  intro p hp
  have hda : (delta_approx w && p.1.delta_state) = p.1.delta_state :=
    delta_and_eq w p.1 (mem_qualifyingEdges_elim w p hp).1
  rw [edgeId, hda]
  by_cases hdom : p.2 = 0
  · simp [hdom]
  · by_cases hdel : p.1.delta_state <;> simp [hdom, hdel] <;> ring

theorem claim_C1_witness :
    (qualifyingEdges wTwoEdges).length ≤ 2
    ∧ classify 2 wTwoEdges
      = Except.ok ((qualifyingEdges wTwoEdges).map (fun p =>
        if p.2 = 0 then
          (if p.1.delta_state then (offsetsOf wTwoEdges).offset1 else 0)
        else
          (if p.1.delta_state then
            (offsetsOf wTwoEdges).offset3
              + ((p.1.level_of_state : Int) - 1
                - (scanOf wTwoEdges).d_min_level)
          else
            (offsetsOf wTwoEdges).offset2
              + ((p.1.level_of_state : Int) - 1
                - (scanOf wTwoEdges).min_level)))) :=
  ⟨by decide, claim_C1 wTwoEdges 2 (by decide)⟩

/-- C2 counterexample: the first pass does not range over the AC edges and
does not see DC edges beyond position 0.  In wDCOnly the non-delta class has
no AC edge at all, yet the scan reports the level range 2..2 of its DC-only
range label instead of an untouched (min greater than max) seed.  In wDCLater
a DC edge exists at edge position 1, yet the scan leaves the DC flag clear. -/
theorem claim_C2_counterexample :
    ((scanWFA wDCOnly).min_level = 2
      ∧ (scanWFA wDCOnly).max_level = 2
      ∧ acEdgeLevelsSpec wDCOnly false = []
      ∧ ¬ ((scanWFA wDCOnly).min_level > (scanWFA wDCOnly).max_level))
    ∧ (dcEdgeExistsSpec wDCLater false = true
      ∧ (scanWFA wDCLater).dc = false) := by
  decide

/-- C2 amended: the first pass computes, separately for the delta and the
non-delta class, the minimum and maximum of (level - 1) over all RANGE LABELS
of that class, each range label contributing the level of its state whether
or not any of its edges has non-zero domain; and it sets the DC flag of a
class exactly when some range label of the class has its FIRST edge with
domain 0. -/
theorem claim_C2_amended (w : WFA) :
    (scanWFA w).min_level = accMin (classLabels w false) MAXLEVEL
    ∧ (scanWFA w).max_level = accMax (classLabels w false) 0
    ∧ (scanWFA w).d_min_level = accMin (classLabels w true) MAXLEVEL
    ∧ (scanWFA w).d_max_level = accMax (classLabels w true) 0
    ∧ (scanWFA w).dc
        = (classLabels w false).any (fun p => p.2.into.headD NO_EDGE == 0)
    ∧ (scanWFA w).d_dc
        = (classLabels w true).any (fun p => p.2.into.headD NO_EDGE == 0) := by
  refine ⟨scanWFA_minOf w false, scanWFA_maxOf w false,
    scanWFA_minOf w true, scanWFA_maxOf w true, ?_, ?_⟩
  · have h := scanWFA_dcOf w false
    rw [accDC_or] at h
    simpa [dcOf] using h
  · have h := scanWFA_dcOf w true
    rw [accDC_or] at h
    simpa [dcOf] using h

/-- C3: the four cumulative offsets are offset1 = dc flag, offset2 adding the
delta dc flag, offset3 adding the non-delta level width, offset4 adding the
delta level width, where an empty class (minimum above maximum after the
scan) has its maximum pulled to minimum - 1, contributing width zero. -/
theorem claim_C3 (a : Scan) :
    (mkOffsets (fixScan a)).offset1 = (if a.dc then 1 else 0)
    ∧ (mkOffsets (fixScan a)).offset2
        = (mkOffsets (fixScan a)).offset1 + (if a.d_dc then 1 else 0)
    ∧ (mkOffsets (fixScan a)).offset3
        = (mkOffsets (fixScan a)).offset2
          + ((fixScan a).max_level - (fixScan a).min_level + 1)
    ∧ (mkOffsets (fixScan a)).offset4
        = (mkOffsets (fixScan a)).offset3
          + ((fixScan a).d_max_level - (fixScan a).d_min_level + 1)
    ∧ (fixScan a).min_level = a.min_level
    ∧ (fixScan a).d_min_level = a.d_min_level
    ∧ (a.min_level > a.max_level →
        (fixScan a).max_level = a.min_level - 1
        ∧ (mkOffsets (fixScan a)).offset3 = (mkOffsets (fixScan a)).offset2)
    ∧ (a.d_min_level > a.d_max_level →
        (fixScan a).d_max_level = a.d_min_level - 1
        ∧ (mkOffsets (fixScan a)).offset4 = (mkOffsets (fixScan a)).offset3)
    ∧ (¬ a.min_level > a.max_level → (fixScan a).max_level = a.max_level)
    ∧ (¬ a.d_min_level > a.d_max_level →
        (fixScan a).d_max_level = a.d_max_level) := by
  obtain ⟨h1, h2, h3, h4⟩ := mkOffsets_spec (fixScan a)
  refine ⟨h1, h2, h3, h4, rfl, rfl, ?_, ?_, ?_, ?_⟩
  · intro hlt
    have hm : (fixScan a).max_level = a.min_level - 1 := by
      simp [fixScan, hlt]
    refine ⟨hm, ?_⟩
    rw [h3, hm]
    have hmin : (fixScan a).min_level = a.min_level := rfl
    rw [hmin]
    omega
  · intro hlt
    have hm : (fixScan a).d_max_level = a.d_min_level - 1 := by
      simp [fixScan, hlt]
    refine ⟨hm, ?_⟩
    rw [h4, hm]
    have hmin : (fixScan a).d_min_level = a.d_min_level := rfl
    rw [hmin]
    omega
  · intro hge
    simp [fixScan, hge]
  · intro hge
    simp [fixScan, hge]

theorem claim_C3_witness :
    ((5 : Int) > 2)
    ∧ (fixScan ⟨5, 2, 7, 3, true, false⟩).max_level = 5 - 1
    ∧ (mkOffsets (fixScan ⟨5, 2, 7, 3, true, false⟩)).offset3
        = (mkOffsets (fixScan ⟨5, 2, 7, 3, true, false⟩)).offset2
    ∧ (mkOffsets (fixScan ⟨5, 2, 7, 3, true, false⟩)).offset1 = 1 := by
  have h := claim_C3 ⟨5, 2, 7, 3, true, false⟩
  have h7 := h.2.2.2.2.2.2.1 (by decide)
  exact ⟨by decide, h7.1, h7.2, by rw [h.1]; decide⟩

/-- C4: with total equal to the number of qualifying edges, read_weights
succeeds and stores exactly that many weight pairs; with total below it, it
fails with the budget error at the first edge beyond the budget, whatever the
decoder and the inverse quantizer do. -/
theorem claim_C4 (w : WFA) (total : Nat)
    (decode_array : List Int → List Nat → Nat → Nat → Nat → List Nat)
    (btor : Nat → RPF → ℚ)
    (hdec : ∀ la cs n t sc, (decode_array la cs n t sc).length = t) :
    (total = (qualifyingEdges w).length →
      ∃ res, read_weights total w decode_array btor = Except.ok res
        ∧ res.length = (qualifyingEdges w).length)
    ∧ (total < (qualifyingEdges w).length →
      read_weights total w decode_array btor = Except.error budgetError) := by
  constructor
  · intro htot
    refine ⟨_, read_weights_ok total w decode_array btor (le_of_eq htot.symm),
      ?_⟩
    rw [writebackPass_eq _ _ _ (by rw [hdec]; omega)]
    rw [List.length_map, List.length_zip, hdec]
    omega
  · intro hlt
    exact read_weights_error total w decode_array btor hlt

theorem claim_C4_witness :
    (∀ la cs n t sc, (decodeZero la cs n t sc).length = t)
    ∧ (∃ res, read_weights 2 wTwoEdges decodeZero (btorConst 0)
        = Except.ok res ∧ res.length = (qualifyingEdges wTwoEdges).length)
    ∧ read_weights 1 wTwoEdges decodeZero (btorConst 0)
        = Except.error budgetError := by
  have hd : ∀ (la : List Int) (cs : List Nat) (n t sc : Nat),
      (decodeZero la cs n t sc).length = t := by
    intro la cs n t sc
    simp [decodeZero]
  have h2 := claim_C4 wTwoEdges 2 decodeZero (btorConst 0) hd
  have h1 := claim_C4 wTwoEdges 1 decodeZero (btorConst 0) hd
  exact ⟨hd, h2.1 (by decide), h1.2 (by decide)⟩

/-- C5: both passes are maps over the one qualifying edge list in the same
traversal order, the writeback consuming the decoded symbols in lockstep, and
for each edge the id written by the classifier and the quantization model
used by the writeback come from the same context class. -/
theorem claim_C5 (w : WFA) (btor : Nat → RPF → ℚ) (syms : List Nat)
    (hlen : (qualifyingEdges w).length ≤ syms.length) :
    writebackPass w btor syms
      = ((qualifyingEdges w).zip syms).map
          (fun p => storeWeight (btor p.2
            (rpfOfClass w.wfainfo (classOfEdge (delta_approx w) p.1.1 p.1.2))))
    ∧ classify (qualifyingEdges w).length w
      = Except.ok ((qualifyingEdges w).map
          (fun p => idOfClass (offsetsOf w) (scanOf w) p.1
            (classOfEdge (delta_approx w) p.1 p.2))) := by
  constructor
  · rw [writebackPass_eq w btor syms hlen]
    apply List.map_congr_left
    intro p _
    rw [edgeRPF_eq_class]
  · rw [classify_eq, if_pos le_rfl]
    congr 1
    apply List.map_congr_left
    intro p _
    rw [edgeId_eq_class]

theorem claim_C5_witness :
    (qualifyingEdges wTwoEdges).length ≤ ([5, 9] : List Nat).length
    ∧ writebackPass wTwoEdges (btorConst 1) [5, 9]
      = ((qualifyingEdges wTwoEdges).zip [5, 9]).map
          (fun p => storeWeight ((btorConst 1) p.2
            (rpfOfClass wTwoEdges.wfainfo
              (classOfEdge (delta_approx wTwoEdges) p.1.1 p.1.2))))
    ∧ classify (qualifyingEdges wTwoEdges).length wTwoEdges
      = Except.ok ((qualifyingEdges wTwoEdges).map
          (fun p => idOfClass (offsetsOf wTwoEdges) (scanOf wTwoEdges) p.1
            (classOfEdge (delta_approx wTwoEdges) p.1 p.2))) := by
  have h := claim_C5 wTwoEdges (btorConst 1) [5, 9] (by decide)
  exact ⟨by decide, h.1, h.2⟩

/-- C6 counterexample: a decoded weight of minus one half is stored with
fixed-point value -255, while round(-1/2 * 512) is -256: the stored integer
weight is not round(real * 512) for negative weights. -/
theorem claim_C6_counterexample :
    read_weights 2 wTwoEdges decodeZero (btorConst (-(1/2)))
      = Except.ok [(-(1/2), -255), (-(1/2), -255)]
    ∧ round ((-(1/2) : ℚ) * 512) = -256
    ∧ ((-255 : Int) ≠ -256) := by
  refine ⟨?_, ?_, by decide⟩
  · rw [read_weights_ok 2 wTwoEdges _ _ (by decide)]
    simp only [decodeZero]
    simp only [writebackPass, wTwoEdges, delta_approx, infoX, List.any_cons,
      List.any_nil, Bool.or_false, wbStates, wbLabels, wbEdges, List.tail_cons,
      List.headD_cons, storeWeight, btorConst, edgeRPF]
    norm_num [ctrunc]
    rw [Int.ceil_eq_iff]
    constructor <;> norm_num
  · rw [round_eq]
    norm_num

/-- C6 amended: the stored fixed-point weight is the C float-to-int
conversion, truncation toward zero, of real * 512 + 1/2; for every
non-negative real weight this equals round(real * 512), while for negative
weights it can exceed it by one. -/
theorem claim_C6_amended (w : WFA) (btor : Nat → RPF → ℚ) (syms : List Nat) :
    ∀ p ∈ writebackPass w btor syms,
      p.2 = ctrunc (p.1 * 512 + 1 / 2)
      ∧ (0 ≤ p.1 → p.2 = round (p.1 * 512)) := by
  intro p hp
  rcases wbStates_mem (delta_approx w) w.wfainfo btor w.states syms [] p hp
    with h1 | ⟨v, rfl⟩
  · simp at h1
  · exact ⟨rfl, fun hv => ctrunc_round_of_nonneg v hv⟩

theorem claim_C6_amended_witness :
    ((1/2 : ℚ), (256 : Int)) ∈ writebackPass wTwoEdges (btorConst (1/2)) [0, 0]
    ∧ (256 : Int) = ctrunc ((1/2 : ℚ) * 512 + 1 / 2)
    ∧ (0 ≤ (1/2 : ℚ) → (256 : Int) = round ((1/2 : ℚ) * 512)) := by
  have hm : ((1/2 : ℚ), (256 : Int))
      ∈ writebackPass wTwoEdges (btorConst (1/2)) [0, 0] := by
    simp only [writebackPass, wTwoEdges, delta_approx, infoX, List.any_cons,
      List.any_nil, Bool.or_false, wbStates, wbLabels, wbEdges, List.tail_cons,
      List.headD_cons, storeWeight, btorConst, edgeRPF]
    norm_num [ctrunc]
  have h := claim_C6_amended wTwoEdges (btorConst (1/2)) [0, 0] _ hm
  exact ⟨hm, h.1, h.2⟩

/-- C7 counterexample: in wDeltaDC the only DC edge belongs to a delta state,
so offset1 = 0 while offset2 = 1; the write for the DC delta model lands on
index 0 and overwrites the DC non-delta entry: the table holds 32, the size
2 ^ (4 + 1) of the DC delta model, not 16 = 2 ^ (3 + 1) as the claim assigns
to id 0. -/
theorem claim_C7_counterexample :
    (offsetsOf wDeltaDC).offset1 = 0
    ∧ (offsetsOf wDeltaDC).offset1 ≠ (offsetsOf wDeltaDC).offset2
    ∧ (cSymbols wDeltaDC.wfainfo (offsetsOf wDeltaDC))[0]? = some 32
    ∧ 2 ^ (wDeltaDC.wfainfo.d_dc_rpf.mantissa_bits + 1) = 32
    ∧ 2 ^ (wDeltaDC.wfainfo.dc_rpf.mantissa_bits + 1) = 16
    ∧ ((32 : Nat) ≠ 16) := by
  decide

/-- C7 amended: the table has length offset4; ids in offset2..offset3 hold
the non-delta AC size, ids in offset3..offset4 the delta AC size, id offset1
the DC delta size whenever offset1 differs from offset2, and id 0 the DC
non-delta size whenever offset1 = 1, that is whenever a non-delta DC edge was
seen; when offset1 = 0 the entry at index 0 is instead owned by the class
whose range covers 0. -/
theorem claim_C7_amended (w : WFA) :
    (cSymbols w.wfainfo (offsetsOf w)).length = (offsetsOf w).offset4.toNat
    ∧ (∀ i : Nat, (offsetsOf w).offset2.toNat ≤ i →
        i < (offsetsOf w).offset3.toNat →
        (cSymbols w.wfainfo (offsetsOf w))[i]?
          = some (2 ^ (w.wfainfo.rpf.mantissa_bits + 1)))
    ∧ (∀ i : Nat, (offsetsOf w).offset3.toNat ≤ i →
        i < (offsetsOf w).offset4.toNat →
        (cSymbols w.wfainfo (offsetsOf w))[i]?
          = some (2 ^ (w.wfainfo.d_rpf.mantissa_bits + 1)))
    ∧ ((offsetsOf w).offset1 ≠ (offsetsOf w).offset2 →
        (cSymbols w.wfainfo (offsetsOf w))[(offsetsOf w).offset1.toNat]?
          = some (2 ^ (w.wfainfo.d_dc_rpf.mantissa_bits + 1)))
    ∧ ((offsetsOf w).offset1 = 1 →
        (cSymbols w.wfainfo (offsetsOf w))[0]?
          = some (2 ^ (w.wfainfo.dc_rpf.mantissa_bits + 1))) := by
  have hoe : offsetsOf w = mkOffsets (fixScan (scanWFA w)) := rfl
  obtain ⟨m0, m12, m23, m34, mne⟩ := offsetsOf_mono (scanWFA w)
  rw [hoe]
  exact cSymbols_facts w.wfainfo _ m0 m12 m23 m34 mne

theorem claim_C7_witness :
    (cSymbols wTwoEdges.wfainfo (offsetsOf wTwoEdges)).length
      = (offsetsOf wTwoEdges).offset4.toNat
    ∧ (cSymbols wTwoEdges.wfainfo (offsetsOf wTwoEdges))[1]?
      = some (2 ^ (wTwoEdges.wfainfo.rpf.mantissa_bits + 1))
    ∧ (cSymbols wTwoEdges.wfainfo (offsetsOf wTwoEdges))[0]?
      = some (2 ^ (wTwoEdges.wfainfo.dc_rpf.mantissa_bits + 1)) := by
  have h := claim_C7_amended wTwoEdges
  exact ⟨h.1, h.2.1 1 (by decide) (by decide), h.2.2.2.2 (by decide)⟩

theorem fixScan_maxOf_of_gt (c : Bool) (a : Scan)
    (h : maxOf c a < minOf c a) :
    maxOf c (fixScan a) = minOf c a - 1 := by
  cases c <;> simp_all [fixScan, minOf, maxOf]

/-- The level width a class contributes to the offsets is zero exactly when
the class has no range labels at all: any range label, with or without AC
edges, contributes its level to the scanned range and so at least width one. -/
theorem classWidth_zero_iff (w : WFA) (c : Bool) :
    maxOf c (scanOf w) - minOf c (scanOf w) + 1 = 0 ↔ classLabels w c = [] := by
  constructor
  · intro h
    by_contra hne
    obtain ⟨p, hp⟩ := List.exists_mem_of_ne_nil _ hne
    have h1 : minOf c (scanWFA w) ≤ (p.1.level_of_state : Int) - 1 := by
      rw [scanWFA_minOf]
      exact accMin_le_mem _ p _ hp
    have h2 : (p.1.level_of_state : Int) - 1 ≤ maxOf c (scanWFA w) := by
      rw [scanWFA_maxOf]
      exact mem_le_accMax _ p _ hp
    have hmax : maxOf c (scanOf w) = maxOf c (scanWFA w) :=
      fixScan_maxOf_of_le c _ (le_trans h1 h2)
    have hmin : minOf c (scanOf w) = minOf c (scanWFA w) :=
      fixScan_minOf c _
    omega
  · intro h
    have hmin0 : minOf c (scanWFA w) = MAXLEVEL := by
      rw [scanWFA_minOf, h]
      rfl
    have hmax0 : maxOf c (scanWFA w) = 0 := by
      rw [scanWFA_maxOf, h]
      rfl
    have hM : MAXLEVEL = 52 := rfl
    have hmax : maxOf c (scanOf w) = minOf c (scanWFA w) - 1 :=
      fixScan_maxOf_of_gt c (scanWFA w) (by omega)
    have hmin : minOf c (scanOf w) = minOf c (scanWFA w) :=
      fixScan_minOf c _
    omega

/-- C8 counterexample: a class without AC edges does not always get width
zero: in wDCOnly the non-delta class has no AC edge, yet its width
offset3 - offset2 is 1, because the DC-only range label contributed its
level.  And on the empty automaton offset4 = 0, yet the alphabet construction
still writes index 0, which is not below offset4: an out-of-bounds write on
the zero-length allocation. -/
theorem claim_C8_counterexample :
    (acEdgeLevelsSpec wDCOnly false = []
      ∧ (offsetsOf wDCOnly).offset3 - (offsetsOf wDCOnly).offset2 = 1)
    ∧ ((offsetsOf wEmpty).offset4 = 0
      ∧ cSymbolWrites (offsetsOf wEmpty) = [0]
      ∧ ¬ ((0 : Nat) < (offsetsOf wEmpty).offset4.toNat)) := by
  decide

/-- C8 amended: with no non-basis state all offsets are zero and read_weights
with total 0 returns the empty weight list; a class contributes zero width to
the offsets exactly when it has no range labels, so a class whose only edges
are DC still contributes width; all alphabet-table writes stay below offset4
whenever offset4 is positive; but when offset4 = 0 the construction still
writes index 0, outside the zero-length table. -/
theorem claim_C8_amended (w : WFA)
    (decode_array : List Int → List Nat → Nat → Nat → Nat → List Nat)
    (btor : Nat → RPF → ℚ) :
    (w.states = [] →
      offsetsOf w = ⟨0, 0, 0, 0⟩
      ∧ read_weights 0 w decode_array btor = Except.ok [])
    ∧ ((offsetsOf w).offset3 - (offsetsOf w).offset2 = 0
        ↔ classLabels w false = [])
    ∧ ((offsetsOf w).offset4 - (offsetsOf w).offset3 = 0
        ↔ classLabels w true = [])
    ∧ (0 < (offsetsOf w).offset4.toNat →
        ∀ i ∈ cSymbolWrites (offsetsOf w), i < (offsetsOf w).offset4.toNat)
    ∧ ((offsetsOf w).offset4.toNat = 0 → 0 ∈ cSymbolWrites (offsetsOf w)) := by
  refine ⟨?_, ?_, ?_, ?_, ?_⟩
  · intro hempty
    have hsc : scanWFA w = initScan := by
      rw [scanWFA, hempty]
      rfl
    have hoff : offsetsOf w = ⟨0, 0, 0, 0⟩ := by
      rw [offsetsOf, scanOf, hsc]
      decide
    have hq : qualifyingEdges w = [] := by
      rw [qualifyingEdges, hempty]
      rfl
    refine ⟨hoff, ?_⟩
    rw [read_weights_ok 0 w decode_array btor (by rw [hq]; simp)]
    rw [writebackPass_eq w btor _ (by rw [hq]; simp)]
    rw [hq]
    rfl
  · have h := classWidth_zero_iff w false
    obtain ⟨h1, h2, h3, h4⟩ := mkOffsets_spec (scanOf w)
    have hoe : offsetsOf w = mkOffsets (scanOf w) := rfl
    rw [hoe, h3]
    simp only [minOf, maxOf, Bool.false_eq_true, if_false] at h
    constructor
    · intro hz
      exact h.1 (by omega)
    · intro hz
      have := h.2 hz
      omega
  · have h := classWidth_zero_iff w true
    obtain ⟨h1, h2, h3, h4⟩ := mkOffsets_spec (scanOf w)
    have hoe : offsetsOf w = mkOffsets (scanOf w) := rfl
    rw [hoe, h4]
    simp only [minOf, maxOf, if_true] at h
    constructor
    · intro hz
      exact h.1 (by omega)
    · intro hz
      have := h.2 hz
      omega
  · intro hpos i hi
    have hoe : offsetsOf w = mkOffsets (fixScan (scanWFA w)) := rfl
    obtain ⟨m0, m12, m23, m34, mne⟩ := offsetsOf_mono (scanWFA w)
    rw [hoe] at hi hpos ⊢
    rw [cSymbolWrites] at hi
    rcases List.mem_append.1 hi with h012 | h3
    · rcases List.mem_append.1 h012 with h01 | h2
      · rcases List.mem_append.1 h01 with h0 | h1
        · have : i = 0 := List.mem_singleton.1 h0
          omega
        · by_cases hne : (mkOffsets (fixScan (scanWFA w))).offset1
              ≠ (mkOffsets (fixScan (scanWFA w))).offset2
          · rw [if_pos hne] at h1
            have hi1 := List.mem_singleton.1 h1
            have h21 := mne hne
            omega
          · rw [if_neg hne] at h1
            simp at h1
      · have := List.mem_range'_1.1 h2
        omega
    · have := List.mem_range'_1.1 h3
      omega
  · intro _
    rw [cSymbolWrites]
    simp

theorem claim_C8_witness :
    wEmpty.states = []
    ∧ offsetsOf wEmpty = ⟨0, 0, 0, 0⟩
    ∧ read_weights 0 wEmpty decodeZero (btorConst 0) = Except.ok []
    ∧ classLabels wEmpty false = []
    ∧ (offsetsOf wEmpty).offset3 - (offsetsOf wEmpty).offset2 = 0
    ∧ (offsetsOf wEmpty).offset4.toNat = 0
    ∧ 0 ∈ cSymbolWrites (offsetsOf wEmpty) := by
  have h := claim_C8_amended wEmpty decodeZero (btorConst 0)
  have h1 := h.1 rfl
  exact ⟨rfl, h1.1, h1.2, by decide, h.2.1.2 (by decide), by decide,
    h.2.2.2.2 (by decide)⟩

/-- C9: every context id the classification pass hands over lies in the id
space 0..offset4 of the alphabet table; an AC edge has its level - 1 between
the scanned minimum and maximum of its class, and a set DC flag places the
corresponding DC id below offset2. -/
theorem claim_C9 (w : WFA) (total : Nat) (ids : List Int)
    (h : classify total w = Except.ok ids) :
    (∀ i ∈ ids, 0 ≤ i ∧ i < (offsetsOf w).offset4)
    ∧ (∀ p ∈ qualifyingEdges w, p.2 ≠ 0 →
        minOf (delta_approx w && p.1.delta_state) (scanWFA w)
            ≤ (p.1.level_of_state : Int) - 1
          ∧ (p.1.level_of_state : Int) - 1
            ≤ maxOf (delta_approx w && p.1.delta_state) (scanWFA w))
    ∧ ((scanOf w).dc = true → 0 < (offsetsOf w).offset2)
    ∧ ((scanOf w).d_dc = true →
        (offsetsOf w).offset1 < (offsetsOf w).offset2) := by
  refine ⟨?_, ?_, ?_, ?_⟩
  · intro i hi
    rw [classify_eq] at h
    by_cases hle : (qualifyingEdges w).length ≤ total
    · rw [if_pos hle] at h
      have hids := Except.ok.inj h
      subst hids
      obtain ⟨p, hp, hpe⟩ := List.mem_map.1 hi
      rw [← hpe]
      exact edgeId_in_range w p hp
    · rw [if_neg hle] at h
      exact absurd h (by simp)
  · intro p hp _
    exact edge_level_bounds w p hp
  · intro hdc
    obtain ⟨h1, h2, h3, h4⟩ := mkOffsets_spec (scanOf w)
    have hoe : offsetsOf w = mkOffsets (scanOf w) := rfl
    rw [hoe, h2, h1, if_pos hdc]
    have : 0 ≤ (if (scanOf w).d_dc then (1 : Int) else 0) := by
      split <;> omega
    omega
  · intro hd
    obtain ⟨h1, h2, h3, h4⟩ := mkOffsets_spec (scanOf w)
    have hoe : offsetsOf w = mkOffsets (scanOf w) := rfl
    rw [hoe, h2, if_pos hd]
    omega

theorem claim_C9_witness :
    classify 2 wTwoEdges = Except.ok [0, 1]
    ∧ (0 ≤ (1 : Int) ∧ (1 : Int) < (offsetsOf wTwoEdges).offset4) := by
  have hcl : classify 2 wTwoEdges = Except.ok [0, 1] := by
    rw [classify_eq, if_pos (by decide)]
    congr 1
  have h := claim_C9 wTwoEdges 2 [0, 1] hcl
  exact ⟨hcl, h.1 1 (by decide)⟩

/-- C10: with a budget above the number of qualifying edges, no error is
raised, the level array is the written ids padded with the zeros of the
calloc fill up to length total, the decoder is invoked for all total symbols,
and the writeback stores exactly one pair per qualifying edge, consuming the
decoded symbols from the front. -/
theorem claim_C10 (w : WFA) (total : Nat)
    (decode_array : List Int → List Nat → Nat → Nat → Nat → List Nat)
    (btor : Nat → RPF → ℚ)
    (hdec : ∀ la cs n t sc, (decode_array la cs n t sc).length = t)
    (hlt : (qualifyingEdges w).length < total) :
    classify total w = Except.ok ((qualifyingEdges w).map
        (fun p => edgeId (delta_approx w) (offsetsOf w) (scanOf w) p.1 p.2))
    ∧ levelArray total w = Except.ok (((qualifyingEdges w).map
          (fun p => edgeId (delta_approx w) (offsetsOf w) (scanOf w) p.1 p.2))
        ++ List.replicate (total - (qualifyingEdges w).length) 0)
    ∧ ((((qualifyingEdges w).map
          (fun (p : StateInfo × Int) =>
            edgeId (delta_approx w) (offsetsOf w) (scanOf w) p.1 p.2))
        ++ List.replicate (total - (qualifyingEdges w).length) 0).length
        = total)
    ∧ read_weights total w decode_array btor
        = Except.ok (((qualifyingEdges w).zip
            (decode_array (((qualifyingEdges w).map
                (fun p => edgeId (delta_approx w) (offsetsOf w) (scanOf w)
                  p.1 p.2))
              ++ List.replicate (total - (qualifyingEdges w).length) 0)
              (cSymbols w.wfainfo (offsetsOf w))
              (offsetsOf w).offset4.toNat total weightScale)).map
            (fun p => storeWeight (btor p.2
              (edgeRPF (delta_approx w) w.wfainfo p.1.1 p.1.2))))
    ∧ ((((qualifyingEdges w).zip
            (decode_array (((qualifyingEdges w).map
                (fun p => edgeId (delta_approx w) (offsetsOf w) (scanOf w)
                  p.1 p.2))
              ++ List.replicate (total - (qualifyingEdges w).length) 0)
              (cSymbols w.wfainfo (offsetsOf w))
              (offsetsOf w).offset4.toNat total weightScale)).map
            (fun p => storeWeight (btor p.2
              (edgeRPF (delta_approx w) w.wfainfo p.1.1 p.1.2)))).length
        = (qualifyingEdges w).length) := by
  have hle := le_of_lt hlt
  refine ⟨?_, levelArray_ok total w hle, ?_, ?_, ?_⟩
  · rw [classify_eq, if_pos hle]
  · rw [List.length_append, List.length_map, List.length_replicate]
    omega
  · rw [read_weights_ok total w decode_array btor hle,
      writebackPass_eq _ _ _ (by rw [hdec]; omega)]
  · rw [List.length_map, List.length_zip, hdec]
    omega

theorem claim_C10_witness :
    ((qualifyingEdges wTwoEdges).length < 5)
    ∧ levelArray 5 wTwoEdges = Except.ok [0, 1, 0, 0, 0]
    ∧ (∃ res, read_weights 5 wTwoEdges decodeZero (btorConst 0)
        = Except.ok res ∧ res.length = 2) := by
  have hd : ∀ (la : List Int) (cs : List Nat) (n t sc : Nat),
      (decodeZero la cs n t sc).length = t := by
    intro la cs n t sc
    simp [decodeZero]
  have h := claim_C10 wTwoEdges 5 decodeZero (btorConst 0) hd (by decide)
  refine ⟨by decide, ?_, ?_⟩
  · rw [h.2.1]
    congr 1
  · refine ⟨_, h.2.2.2.1, ?_⟩
    rw [h.2.2.2.2]
    decide
